import Mathlib

/-!
Verification of the traversal core of the `full-moon` visitor module
(`src/visitors.rs`).

The file shallowly embeds:
* the token arena (an ordered list of tokens) and `TokenReference`
  (`Borrowed { arena, index }` / `Owned(token)`);
* the generic tree shape a visitor walks: nodes of a fixed kind with an
  ordered field list, where each field is a node, a token reference, or one
  of the generic containers (`Vec`, `Option`, pair, `Box`, `Cow`);
* the read-only `Visit` path and the `Visitor::visit_ast` driver
  (arena sweep, then structural descent), exactly following the source;
* the mutating `VisitMut` path and `VisitorMut::visit_ast`.  Because a
  mutating enter hook may rewrite a node's fields before the descent
  recurses into them (`&mut` access), the recursion is not structural on the
  input tree; the embedding therefore threads an explicit recursion budget
  (`fuel`), and theorems about the mutating path quantify over a sufficient
  budget.

The concrete node-kind `accept`/`accept_mut` implementations and the
`Visit`/`VisitMut` implementations for `TokenReference` live in the `ast`
and `tokenizer` modules, outside the analysed source file; those pieces are
modelled from the spec where noted.
-/

namespace FullMoon

/-- The lexical token kinds of the language, one per token hook of the
dispatch surface (`visit_eof`, `visit_identifier`, ..., `visit_whitespace`
in the source manifest). -/
inductive TokenKind where
  | eof
  | identifier
  | multiLineComment
  | number
  | singleLineComment
  | stringLiteral
  | symbol
  | whitespace
deriving DecidableEq

/-- A lexical token: kind tag plus exact source text. -/
structure Token where
  kind : TokenKind
  text : String
deriving DecidableEq

/-- The node kinds of the manifest passed to `create_visitor!` in the
source (one enter/exit hook pair per kind). -/
inductive NodeKind where
  | anonymousCall
  | assignment
  | binOp
  | block
  | call
  | containedSpan
  | doStmt
  | elseIf
  | expression
  | field
  | functionArgs
  | functionBody
  | functionCall
  | functionDeclaration
  | functionName
  | genericFor
  | ifStmt
  | indexExpr
  | localAssignment
  | localFunction
  | lastStmt
  | methodCall
  | numericFor
  | parameter
  | prefExpr
  | returnStmt
  | repeatStmt
  | stmt
  | suffix
  | tableConstructor
  | unOp
  | value
  | var
  | varExpression
  | whileStmt
deriving DecidableEq

/-- A token reference: either a borrowed view into the shared arena at a
stable index (`TokenReference::Borrowed { arena, index }`) or an owned
standalone token (`TokenReference::Owned`). -/
inductive TokenReference where
  | borrowed (arena : List Token) (index : Nat)
  | owned (tok : Token)
deriving DecidableEq

/-- Modelled from the spec: `resolve` reads through to the referenced
token's current content (§4.2).  An out-of-bounds borrowed index is a
programming-contract violation in the source (§7); the model totalises it
with a default end-of-input token, which no theorem below exercises. -/
def TokenReference.resolve : TokenReference → Token
  | TokenReference.borrowed arena i => (arena.get? i).getD ⟨TokenKind.eof, ""⟩
  | TokenReference.owned t => t

mutual

/-- A tree field, as the uniform grammar of field types the container
`Visit`/`VisitMut` implementations in the source cover: a child node, a
token reference, a `Vec` (`seq`), an `Option` (`optNone`/`optSome`), a
pair, a `Box` (`boxed`), or a `Cow` (`cowB` = `Cow::Borrowed`, whose
payload models the shared value the borrow points at, `cowO` =
`Cow::Owned`). -/
inductive Field where
  | node (k : NodeKind) (fs : Fields)
  | token (r : TokenReference)
  | seq (fs : Fields)
  | optNone
  | optSome (f : Field)
  | pair (a : Field) (b : Field)
  | boxed (f : Field)
  | cowB (f : Field)
  | cowO (f : Field)

/-- The ordered field list of a node (a node kind's declared fields, in
declaration order). -/
inductive Fields where
  | nil
  | cons (f : Field) (fs : Fields)

end

/-- A syntax tree as the driver receives it: the shared token arena plus
the root node (`Ast { tokens, nodes }`). -/
structure Ast where
  tokens : List Token
  nodes : Field

/-- An observable hook invocation: a node-kind enter hook, a node-kind
exit hook (the `_end` method), or a token-kind hook. -/
inductive Event where
  | enter (k : NodeKind) (fs : Fields)
  | exit (k : NodeKind) (fs : Fields)
  | token (k : TokenKind) (r : TokenReference)

/-- A read-only visitor: one enter and one exit hook per node kind and one
hook per token kind, each an arbitrary state transformer (the source trait
methods take `&mut self`; `σ` is the visitor's own state).  Node hooks
receive the node (kind plus fields) immutably. -/
structure Visitor (σ : Type) where
  enterHook : NodeKind → Fields → σ → σ
  exitHook : NodeKind → Fields → σ → σ
  tokenHook : TokenKind → TokenReference → σ → σ

/-- Modelled from the spec: the `Visit` implementation for
`TokenReference` (outside the analysed file) resolves the token's kind and
invokes the matching token-kind hook once (§4.3). -/
def TokenReference.visit {σ : Type} (v : Visitor σ) (r : TokenReference) (s : σ) : σ :=
  v.tokenHook r.resolve.kind r s

mutual

/-- The read-only `accept`/`visit` path.  The node case is modelled from
the spec (§4.3): enter hook, each declared field in order, exit hook.  The
container cases follow the `Visit` implementations in the source: `Vec`
visits elements in order, `Option` visits the payload if present, a pair
visits first then second, `Box` and both `Cow` variants forward to the
contained value (the read-only `Cow` path dereferences, it never copies). -/
def Field.visit {σ : Type} (v : Visitor σ) : Field → σ → σ
  | Field.node k fs, s => v.exitHook k fs (Fields.visit v fs (v.enterHook k fs s))
  | Field.token r, s => TokenReference.visit v r s
  | Field.seq fs, s => Fields.visit v fs s
  | Field.optNone, s => s
  | Field.optSome f, s => Field.visit v f s
  | Field.pair a b, s => Field.visit v b (Field.visit v a s)
  | Field.boxed f, s => Field.visit v f s
  | Field.cowB f, s => Field.visit v f s
  | Field.cowO f, s => Field.visit v f s

/-- `Visit` for `Vec<T>`: visit each element, index 0 upward, in order. -/
def Fields.visit {σ : Type} (v : Visitor σ) : Fields → σ → σ
  | Fields.nil, s => s
  | Fields.cons f fs, s => Fields.visit v fs (Field.visit v f s)

end

/-- Modelled from the spec: the arena's `iterate()` yields `(index, token)`
pairs in creation order (§4.1); `iterFrom` is the cursor starting at a
given index. -/
def iterFrom : Nat → List Token → List (Nat × Token)
  | _, [] => []
  | i, t :: ts => (i, t) :: iterFrom (i + 1) ts

/-- Modelled from the spec: `iterate` enumerates the whole arena from
index 0. -/
def iterate (ts : List Token) : List (Nat × Token) :=
  iterFrom 0 ts

/-- The loop body of the arena sweep in `Visitor::visit_ast`: for each
yielded `(index, _)` build `TokenReference::Borrowed { arena, index }` and
visit it. -/
def sweepGo {σ : Type} (v : Visitor σ) (arena : List Token) : List (Nat × Token) → σ → σ
  | [], s => s
  | (i, _) :: rest, s =>
      sweepGo v arena rest (TokenReference.visit v (TokenReference.borrowed arena i) s)

/-- Pass 1 of `Visitor::visit_ast`: the full-arena sweep. -/
def sweep {σ : Type} (v : Visitor σ) (arena : List Token) (s : σ) : σ :=
  sweepGo v arena (iterate arena) s

/-- The read-only driver `Visitor::visit_ast`: sweep the arena, then
descend from the root node (`ast.nodes().visit(self)`). -/
def visit_ast {σ : Type} (v : Visitor σ) (ast : Ast) (s : σ) : σ :=
  Field.visit v ast.nodes (sweep v ast.tokens s)

/-- The canonical observing visitor: its state is the list of hook
invocations so far, and every hook appends its own event. -/
def traceV : Visitor (List Event) :=
  ⟨fun k fs tr => tr ++ [Event.enter k fs],
   fun k fs tr => tr ++ [Event.exit k fs],
   fun k r tr => tr ++ [Event.token k r]⟩

mutual

/-- The hook-invocation trace of one field's read-only traversal; the
theorem `field_visit_fold` below proves that for every visitor the
traversal is exactly the left fold of its hooks over this event list. -/
def fieldTrace : Field → List Event
  | Field.node k fs => Event.enter k fs :: (fieldsTrace fs ++ [Event.exit k fs])
  | Field.token r => [Event.token r.resolve.kind r]
  | Field.seq fs => fieldsTrace fs
  | Field.optNone => []
  | Field.optSome f => fieldTrace f
  | Field.pair a b => fieldTrace a ++ fieldTrace b
  | Field.boxed f => fieldTrace f
  | Field.cowB f => fieldTrace f
  | Field.cowO f => fieldTrace f

/-- The hook-invocation trace of a field list's read-only traversal. -/
def fieldsTrace : Fields → List Event
  | Fields.nil => []
  | Fields.cons f fs => fieldTrace f ++ fieldsTrace fs

end

/-- The hook-invocation trace of the arena sweep, defined as the run of
the canonical observing visitor over pass 1 of the source driver. -/
def sweepTrace (arena : List Token) : List Event :=
  sweep traceV arena []

/-- The hook-invocation trace of a full `visit_ast` run, defined as the
run of the canonical observing visitor over the source driver. -/
def astTrace (ast : Ast) : List Event :=
  visit_ast traceV ast []

/-- Replaying one recorded event against an arbitrary visitor's hooks. -/
def applyHook {σ : Type} (v : Visitor σ) (s : σ) (e : Event) : σ :=
  match e with
  | Event.enter k fs => v.enterHook k fs s
  | Event.exit k fs => v.exitHook k fs s
  | Event.token k r => v.tokenHook k r s

/-- The all-default read-only visitor: every hook is the no-op default the
`create_visitor!` macro generates. -/
def defaultVisitor (σ : Type) : Visitor σ :=
  ⟨fun _ _ s => s, fun _ _ s => s, fun _ _ s => s⟩

/-- A mutating visitor: the hooks receive mutable views, so besides
transforming the visitor state they may rewrite the node's fields (the
node's kind is fixed by the receiving method's type) or the token
reference. -/
structure VisitorMut (σ : Type) where
  enterHook : NodeKind → Fields → σ → Fields × σ
  exitHook : NodeKind → Fields → σ → Fields × σ
  tokenHook : TokenKind → TokenReference → σ → TokenReference × σ

/-- Modelled from the spec: the `VisitMut` implementation for
`TokenReference` resolves the token's kind and invokes the matching
token-kind hook once with a mutable view, returning the (possibly
rewritten) reference. -/
def TokenReference.visit_mut {σ : Type} (v : VisitorMut σ) (r : TokenReference) (s : σ) :
    TokenReference × σ :=
  v.tokenHook r.resolve.kind r s

mutual

/-- The mutating `accept_mut`/`visit_mut` path.  The node case is
modelled from the spec (§4.3/§4.4): enter hook (whose rewrite is visible
to the descent), each (possibly rewritten) field in order, exit hook on
the mutated node.  The container cases follow the `VisitMut`
implementations in the source; in particular `Cow` calls `to_mut()` before
forwarding, so a `Cow::Borrowed` value is cloned to `Cow::Owned` and the
recursion proceeds on the private copy, and the result is `Cow::Owned` in
either case.  Because an enter hook may replace fields with arbitrarily
large subtrees before they are visited, the recursion carries an explicit
budget (first argument); `none` means the budget ran out. -/
def Field.visit_mut {σ : Type} (v : VisitorMut σ) : Nat → Field → σ → Option (Field × σ)
  | 0, _, _ => none
  | Nat.succ n, Field.node k fs, s =>
      let r1 := v.enterHook k fs s
      match Fields.visit_mut v n r1.1 r1.2 with
      | none => none
      | some (fs2, s2) =>
          let r3 := v.exitHook k fs2 s2
          some (Field.node k r3.1, r3.2)
  | Nat.succ _, Field.token r, s =>
      let p := TokenReference.visit_mut v r s
      some (Field.token p.1, p.2)
  | Nat.succ n, Field.seq fs, s =>
      match Fields.visit_mut v n fs s with
      | none => none
      | some (fs2, s2) => some (Field.seq fs2, s2)
  | Nat.succ _, Field.optNone, s => some (Field.optNone, s)
  | Nat.succ n, Field.optSome f, s =>
      match Field.visit_mut v n f s with
      | none => none
      | some (f2, s2) => some (Field.optSome f2, s2)
  | Nat.succ n, Field.pair a b, s =>
      match Field.visit_mut v n a s with
      | none => none
      | some (a2, s1) =>
        match Field.visit_mut v n b s1 with
        | none => none
        | some (b2, s2) => some (Field.pair a2 b2, s2)
  | Nat.succ n, Field.boxed f, s =>
      match Field.visit_mut v n f s with
      | none => none
      | some (f2, s2) => some (Field.boxed f2, s2)
  | Nat.succ n, Field.cowB f, s =>
      match Field.visit_mut v n f s with
      | none => none
      | some (f2, s2) => some (Field.cowO f2, s2)
  | Nat.succ n, Field.cowO f, s =>
      match Field.visit_mut v n f s with
      | none => none
      | some (f2, s2) => some (Field.cowO f2, s2)

/-- `VisitMut` for `Vec<T>`: visit each element, index 0 upward, in
order, accumulating the rewritten elements. -/
def Fields.visit_mut {σ : Type} (v : VisitorMut σ) : Nat → Fields → σ → Option (Fields × σ)
  | 0, _, _ => none
  | Nat.succ _, Fields.nil, s => some (Fields.nil, s)
  | Nat.succ n, Fields.cons f fs, s =>
      match Field.visit_mut v n f s with
      | none => none
      | some (f2, s1) =>
        match Fields.visit_mut v n fs s1 with
        | none => none
        | some (fs2, s2) => some (Fields.cons f2 fs2, s2)

end

/-- The loop body of the arena sweep in `VisitorMut::visit_ast`: a fresh
`TokenReference::Borrowed { arena, index }` temporary is visited mutably;
only the visitor state survives, the (possibly rewritten) temporary
reference is dropped and the arena itself is never written. -/
def sweepMutGo {σ : Type} (v : VisitorMut σ) (arena : List Token) :
    List (Nat × Token) → σ → σ
  | [], s => s
  | (i, _) :: rest, s =>
      sweepMutGo v arena rest
        (TokenReference.visit_mut v (TokenReference.borrowed arena i) s).2

/-- Pass 1 of `VisitorMut::visit_ast`: the full-arena sweep over mutable
token-reference temporaries. -/
def sweep_mut {σ : Type} (v : VisitorMut σ) (arena : List Token) (s : σ) : σ :=
  sweepMutGo v arena (iterate arena) s

/-- The mutating driver `VisitorMut::visit_ast`: sweep the arena, then
descend mutably from the root node (`ast.nodes_mut().visit_mut(self)`);
the arena is carried over unchanged. -/
def visit_ast_mut {σ : Type} (v : VisitorMut σ) (n : Nat) (ast : Ast) (s : σ) :
    Option (Ast × σ) :=
  match Field.visit_mut v n ast.nodes (sweep_mut v ast.tokens s) with
  | none => none
  | some (root2, s2) => some (⟨ast.tokens, root2⟩, s2)

/-- The all-default mutating visitor: every hook leaves its node or token
untouched and its state unchanged, the no-op default the `create_visitor!`
macro generates. -/
def defaultVisitorMut (σ : Type) : VisitorMut σ :=
  ⟨fun _ fs s => (fs, s), fun _ fs s => (fs, s), fun _ r s => (r, s)⟩

/-- Wrapping a mutating visitor so that, besides its own behaviour, every
hook invocation is recorded in an event list carried in the state (the
"counting visitor" of the spec's testable properties). -/
def traced {σ : Type} (v : VisitorMut σ) : VisitorMut (σ × List Event) :=
  ⟨fun k fs p =>
      let r := v.enterHook k fs p.1
      (r.1, (r.2, p.2 ++ [Event.enter k fs])),
   fun k fs p =>
      let r := v.exitHook k fs p.1
      (r.1, (r.2, p.2 ++ [Event.exit k fs])),
   fun k r p =>
      let q := v.tokenHook k r p.1
      (q.1, (q.2, p.2 ++ [Event.token k r]))⟩

mutual

/-- The structural size of a field; a recursion budget strictly larger
than this suffices for the all-default mutating traversal. -/
def sizeF : Field → Nat
  | Field.node _ fs => sizeFs fs + 1
  | Field.token _ => 1
  | Field.seq fs => sizeFs fs + 1
  | Field.optNone => 1
  | Field.optSome f => sizeF f + 1
  | Field.pair a b => sizeF a + sizeF b + 1
  | Field.boxed f => sizeF f + 1
  | Field.cowB f => sizeF f + 1
  | Field.cowO f => sizeF f + 1

/-- The structural size of a field list. -/
def sizeFs : Fields → Nat
  | Fields.nil => 0
  | Fields.cons f fs => sizeF f + sizeFs fs + 1

end

mutual

/-- The shape a tree has after an all-default mutating traversal: every
content untouched, but every traversed `Cow` left in the `Owned` state
(the unconditional `to_mut()` call). -/
def cowsOwned : Field → Field
  | Field.node k fs => Field.node k (cowsOwnedFs fs)
  | Field.token r => Field.token r
  | Field.seq fs => Field.seq (cowsOwnedFs fs)
  | Field.optNone => Field.optNone
  | Field.optSome f => Field.optSome (cowsOwned f)
  | Field.pair a b => Field.pair (cowsOwned a) (cowsOwned b)
  | Field.boxed f => Field.boxed (cowsOwned f)
  | Field.cowB f => Field.cowO (cowsOwned f)
  | Field.cowO f => Field.cowO (cowsOwned f)

/-- `cowsOwned` over a field list. -/
def cowsOwnedFs : Fields → Fields
  | Fields.nil => Fields.nil
  | Fields.cons f fs => Fields.cons (cowsOwned f) (cowsOwnedFs fs)

end

mutual

/-- Erasing the borrowed/owned distinction of every `Cow` (both variants
become `cowB`): two fields with equal erasure hold the same content and
differ at most in ownership of shared values. -/
def eraseCow : Field → Field
  | Field.node k fs => Field.node k (eraseCowFs fs)
  | Field.token r => Field.token r
  | Field.seq fs => Field.seq (eraseCowFs fs)
  | Field.optNone => Field.optNone
  | Field.optSome f => Field.optSome (eraseCow f)
  | Field.pair a b => Field.pair (eraseCow a) (eraseCow b)
  | Field.boxed f => Field.boxed (eraseCow f)
  | Field.cowB f => Field.cowB (eraseCow f)
  | Field.cowO f => Field.cowB (eraseCow f)

/-- `eraseCow` over a field list. -/
def eraseCowFs : Fields → Fields
  | Fields.nil => Fields.nil
  | Fields.cons f fs => Fields.cons (eraseCow f) (eraseCowFs fs)

end

mutual

/-- Whether every `Cow` in the field is in the `Owned` state (no
structural sharing with any other holder remains). -/
def allOwned : Field → Bool
  | Field.node _ fs => allOwnedFs fs
  | Field.token _ => true
  | Field.seq fs => allOwnedFs fs
  | Field.optNone => true
  | Field.optSome f => allOwned f
  | Field.pair a b => allOwned a && allOwned b
  | Field.boxed f => allOwned f
  | Field.cowB _ => false
  | Field.cowO f => allOwned f

/-- `allOwned` over a field list. -/
def allOwnedFs : Fields → Bool
  | Fields.nil => true
  | Fields.cons f fs => allOwned f && allOwnedFs fs

end

/-- The events a token-hook invocation of the sweep records carry the
borrowed reference; this projects the arena index it was built from. -/
def evIndex : Event → Nat
  | Event.token _ (TokenReference.borrowed _ i) => i
  | _ => 0

/-- How many enter-hook invocations for node kind `K` a trace contains. -/
def countEnter (K : NodeKind) (tr : List Event) : Nat :=
  (tr.filter (fun e =>
    match e with
    | Event.enter k _ => k == K
    | _ => false)).length

/-- How many exit-hook invocations for node kind `K` a trace contains. -/
def countExit (K : NodeKind) (tr : List Event) : Nat :=
  (tr.filter (fun e =>
    match e with
    | Event.exit k _ => k == K
    | _ => false)).length

theorem countEnter_append (K : NodeKind) (a b : List Event) :
    countEnter K (a ++ b) = countEnter K a + countEnter K b := by
  simp [countEnter, List.filter_append]

theorem countExit_append (K : NodeKind) (a b : List Event) :
    countExit K (a ++ b) = countExit K a + countExit K b := by
  simp [countExit, List.filter_append]

mutual

/-- For every visitor, the read-only traversal of a field is exactly the
left fold of the visitor's hooks over the field's trace: the traversal's
whole effect is the recorded sequence of hook invocations. -/
theorem field_visit_fold {σ : Type} (v : Visitor σ) (f : Field) (s : σ) :
    Field.visit v f s = (fieldTrace f).foldl (applyHook v) s := by
  cases f with
  | node k fs =>
      simp [Field.visit, fieldTrace, fields_visit_fold v fs, applyHook,
        List.foldl_append]
  | token r =>
      simp [Field.visit, fieldTrace, TokenReference.visit, applyHook]
  | seq fs =>
      simp [Field.visit, fieldTrace, fields_visit_fold v fs]
  | optNone =>
      simp [Field.visit, fieldTrace]
  | optSome f =>
      simp [Field.visit, fieldTrace, field_visit_fold v f]
  | pair a b =>
      simp [Field.visit, fieldTrace, field_visit_fold v a,
        field_visit_fold v b, List.foldl_append]
  | boxed f =>
      simp [Field.visit, fieldTrace, field_visit_fold v f]
  | cowB f =>
      simp [Field.visit, fieldTrace, field_visit_fold v f]
  | cowO f =>
      simp [Field.visit, fieldTrace, field_visit_fold v f]

/-- `field_visit_fold` for field lists. -/
theorem fields_visit_fold {σ : Type} (v : Visitor σ) (fs : Fields) (s : σ) :
    Fields.visit v fs s = (fieldsTrace fs).foldl (applyHook v) s := by
  cases fs with
  | nil =>
      simp [Fields.visit, fieldsTrace]
  | cons f fs =>
      simp [Fields.visit, fieldsTrace, field_visit_fold v f,
        fields_visit_fold v fs, List.foldl_append]

end

theorem applyHook_traceV (tr : List Event) (e : Event) :
    applyHook traceV tr e = tr ++ [e] := by
  cases e <;> rfl

theorem foldl_traceV (l tr : List Event) :
    l.foldl (applyHook traceV) tr = tr ++ l := by
  induction l generalizing tr with
  | nil => simp
  | cons e l ih => simp [applyHook_traceV, ih]

theorem fieldTrace_canonical (f : Field) :
    Field.visit traceV f [] = fieldTrace f := by
  simp [field_visit_fold, foldl_traceV]

theorem fieldsTrace_canonical (fs : Fields) :
    Fields.visit traceV fs [] = fieldsTrace fs := by
  simp [fields_visit_fold, foldl_traceV]

/-- The event one sweep step records for the arena entry at `p.1`. -/
def sweepEvent (arena : List Token) (p : Nat × Token) : Event :=
  Event.token (TokenReference.borrowed arena p.1).resolve.kind
    (TokenReference.borrowed arena p.1)

theorem sweepGo_fold {σ : Type} (v : Visitor σ) (arena : List Token)
    (l : List (Nat × Token)) (s : σ) :
    sweepGo v arena l s = (l.map (sweepEvent arena)).foldl (applyHook v) s := by
  induction l generalizing s with
  | nil => simp [sweepGo]
  | cons p rest ih =>
      cases p with
      | mk i t =>
          simp [sweepGo, ih, sweepEvent, applyHook, TokenReference.visit]

theorem sweepTrace_map (arena : List Token) :
    sweepTrace arena = (iterate arena).map (sweepEvent arena) := by
  simp [sweepTrace, sweep, sweepGo_fold, foldl_traceV]

theorem sweep_fold {σ : Type} (v : Visitor σ) (arena : List Token) (s : σ) :
    sweep v arena s = (sweepTrace arena).foldl (applyHook v) s := by
  simp [sweep, sweepGo_fold, sweepTrace_map]

theorem iterFrom_resolve (arena : List Token) :
    ∀ (rest : List Token) (i : Nat),
      (∀ k, arena.get? (i + k) = rest.get? k) →
      (iterFrom i rest).map (sweepEvent arena) =
        (iterFrom i rest).map
          (fun p => Event.token p.2.kind (TokenReference.borrowed arena p.1)) := by
  intro rest
  induction rest with
  | nil => intro i _; simp [iterFrom]
  | cons t ts ih =>
      intro i h
      have h0 : arena.get? i = some t := by simpa using h 0
      have h1 : ∀ k, arena.get? (i + 1 + k) = ts.get? k := by
        intro k
        have e : i + 1 + k = i + (k + 1) := by omega
        rw [e, h (k + 1)]
        simp
      have h0' : arena[i]? = some t := by
        simpa [List.get?_eq_getElem?] using h0
      simp [iterFrom, sweepEvent, TokenReference.resolve, h0', ih (i + 1) h1]

/-- Pass 1 records, for each arena entry in creation order, one token-hook
invocation carrying that entry's kind and a borrowed reference at its
index. -/
theorem sweepTrace_tokens (arena : List Token) :
    sweepTrace arena =
      (iterate arena).map
        (fun p => Event.token p.2.kind (TokenReference.borrowed arena p.1)) := by
  rw [sweepTrace_map, iterate, iterFrom_resolve]
  intro k
  simp

theorem iterFrom_map_fst (ts : List Token) :
    ∀ i : Nat, (iterFrom i ts).map Prod.fst = List.range' i ts.length := by
  induction ts with
  | nil => intro i; simp [iterFrom]
  | cons t ts ih => intro i; simp [iterFrom, List.range'_succ, ih]

theorem iterate_map_fst (ts : List Token) :
    (iterate ts).map Prod.fst = List.range ts.length := by
  rw [iterate, iterFrom_map_fst, List.range_eq_range']

theorem astTrace_decomp (ast : Ast) :
    astTrace ast = sweepTrace ast.tokens ++ fieldTrace ast.nodes := by
  simp [astTrace, visit_ast, field_visit_fold, sweep_fold, foldl_traceV]

/-- For every visitor, a full `visit_ast` run is the left fold of the
visitor's hooks over the run's trace. -/
theorem visit_ast_fold {σ : Type} (v : Visitor σ) (ast : Ast) (s : σ) :
    visit_ast v ast s = (astTrace ast).foldl (applyHook v) s := by
  simp [visit_ast, field_visit_fold, sweep_fold, astTrace_decomp,
    List.foldl_append]

theorem countEnter_enter_single (K k : NodeKind) (fs : Fields) :
    countEnter K [Event.enter k fs] = if k == K then 1 else 0 := by
  cases h : k == K <;> simp [countEnter, h]

theorem countEnter_exit_single (K k : NodeKind) (fs : Fields) :
    countEnter K [Event.exit k fs] = 0 := by
  simp [countEnter]

theorem countEnter_token_single (K : NodeKind) (tk : TokenKind) (r : TokenReference) :
    countEnter K [Event.token tk r] = 0 := by
  simp [countEnter]

theorem countExit_exit_single (K k : NodeKind) (fs : Fields) :
    countExit K [Event.exit k fs] = if k == K then 1 else 0 := by
  cases h : k == K <;> simp [countExit, h]

theorem countExit_enter_single (K k : NodeKind) (fs : Fields) :
    countExit K [Event.enter k fs] = 0 := by
  simp [countExit]

theorem countExit_token_single (K : NodeKind) (tk : TokenKind) (r : TokenReference) :
    countExit K [Event.token tk r] = 0 := by
  simp [countExit]

/-- A trace delta bracketed as enter, balanced body, exit is balanced. -/
theorem balanced_bracket (k ke : NodeKind) (fsa fsb : Fields) (d : List Event)
    (hd : ∀ K, countEnter K d = countExit K d) (hk : ke = k) :
    ∀ K, countEnter K (Event.enter k fsa :: (d ++ [Event.exit ke fsb])) =
      countExit K (Event.enter k fsa :: (d ++ [Event.exit ke fsb])) := by
  intro K
  have e1 : Event.enter k fsa :: (d ++ [Event.exit ke fsb]) =
      [Event.enter k fsa] ++ d ++ [Event.exit ke fsb] := by simp
  rw [e1, countEnter_append, countEnter_append, countExit_append,
    countExit_append, hd K, countEnter_enter_single, countEnter_exit_single,
    countExit_enter_single, countExit_exit_single, hk]
  omega

mutual

/-- Over a read-only traversal of any field, each node kind records
equally many enter- and exit-hook invocations. -/
theorem balanced_fieldTrace (K : NodeKind) (f : Field) :
    countEnter K (fieldTrace f) = countExit K (fieldTrace f) := by
  cases f with
  | node k fs =>
      have ih := balanced_fieldsTrace K fs
      have e1 : fieldTrace (Field.node k fs) =
          [Event.enter k fs] ++ fieldsTrace fs ++ [Event.exit k fs] := by
        simp [fieldTrace]
      rw [e1, countEnter_append, countEnter_append, countExit_append,
        countExit_append, ih, countEnter_enter_single, countEnter_exit_single,
        countExit_enter_single, countExit_exit_single]
      omega
  | token r =>
      simp [fieldTrace, countEnter_token_single, countExit_token_single]
  | seq fs => simpa [fieldTrace] using balanced_fieldsTrace K fs
  | optNone => simp [fieldTrace, countEnter, countExit]
  | optSome f => simpa [fieldTrace] using balanced_fieldTrace K f
  | pair a b =>
      have ha := balanced_fieldTrace K a
      have hb := balanced_fieldTrace K b
      simp [fieldTrace, countEnter_append, countExit_append, ha, hb]
  | boxed f => simpa [fieldTrace] using balanced_fieldTrace K f
  | cowB f => simpa [fieldTrace] using balanced_fieldTrace K f
  | cowO f => simpa [fieldTrace] using balanced_fieldTrace K f

/-- `balanced_fieldTrace` for field lists. -/
theorem balanced_fieldsTrace (K : NodeKind) (fs : Fields) :
    countEnter K (fieldsTrace fs) = countExit K (fieldsTrace fs) := by
  cases fs with
  | nil => simp [fieldsTrace, countEnter, countExit]
  | cons f fs =>
      have hf := balanced_fieldTrace K f
      have hfs := balanced_fieldsTrace K fs
      simp [fieldsTrace, countEnter_append, countExit_append, hf, hfs]

end

theorem defaultVisitorMut_enter (σ : Type) (k : NodeKind) (fs : Fields) (s : σ) :
    (defaultVisitorMut σ).enterHook k fs s = (fs, s) := rfl

theorem defaultVisitorMut_exit (σ : Type) (k : NodeKind) (fs : Fields) (s : σ) :
    (defaultVisitorMut σ).exitHook k fs s = (fs, s) := rfl

theorem defaultVisitorMut_token (σ : Type) (r : TokenReference) (s : σ) :
    TokenReference.visit_mut (defaultVisitorMut σ) r s = (r, s) := rfl

/-- With the all-default mutating visitor and a recursion budget larger
than the tree's size, `visit_mut` succeeds, leaves the visitor state
untouched, and returns the tree with every traversed `Cow` forced to the
`Owned` state and everything else unchanged. -/
theorem default_visit_mut (σ : Type) :
    ∀ n : Nat,
      (∀ (f : Field) (s : σ), sizeF f < n →
        Field.visit_mut (defaultVisitorMut σ) n f s = some (cowsOwned f, s)) ∧
      (∀ (fs : Fields) (s : σ), sizeFs fs < n →
        Fields.visit_mut (defaultVisitorMut σ) n fs s = some (cowsOwnedFs fs, s)) := by
  intro n
  induction n with
  | zero =>
      constructor
      · intro f s h; exact absurd h (Nat.not_lt_zero _)
      · intro fs s h; exact absurd h (Nat.not_lt_zero _)
  | succ n ih =>
      constructor
      · intro f s h
        cases f with
        | node k fs =>
            have hs : sizeFs fs < n := by simp [sizeF] at h; omega
            simp [Field.visit_mut, defaultVisitorMut_enter,
              defaultVisitorMut_exit, ih.2 fs s hs, cowsOwned]
        | token r =>
            simp [Field.visit_mut, defaultVisitorMut_token, cowsOwned]
        | seq fs =>
            have hs : sizeFs fs < n := by simp [sizeF] at h; omega
            simp [Field.visit_mut, ih.2 fs s hs, cowsOwned]
        | optNone =>
            simp [Field.visit_mut, cowsOwned]
        | optSome f =>
            have hs : sizeF f < n := by simp [sizeF] at h; omega
            simp [Field.visit_mut, ih.1 f s hs, cowsOwned]
        | pair a b =>
            have ha : sizeF a < n := by simp [sizeF] at h; omega
            have hb : sizeF b < n := by simp [sizeF] at h; omega
            simp [Field.visit_mut, ih.1 a s ha, ih.1 b s hb, cowsOwned]
        | boxed f =>
            have hs : sizeF f < n := by simp [sizeF] at h; omega
            simp [Field.visit_mut, ih.1 f s hs, cowsOwned]
        | cowB f =>
            have hs : sizeF f < n := by simp [sizeF] at h; omega
            simp [Field.visit_mut, ih.1 f s hs, cowsOwned]
        | cowO f =>
            have hs : sizeF f < n := by simp [sizeF] at h; omega
            simp [Field.visit_mut, ih.1 f s hs, cowsOwned]
      · intro fs s h
        cases fs with
        | nil => simp [Fields.visit_mut, cowsOwnedFs]
        | cons f fs =>
            have hf : sizeF f < n := by simp [sizeFs] at h; omega
            have hfs : sizeFs fs < n := by simp [sizeFs] at h; omega
            simp [Fields.visit_mut, ih.1 f s hf, ih.2 fs s hfs, cowsOwnedFs]

mutual

/-- Erasing the `Cow` ownership tags of `cowsOwned f` gives back the
erasure of `f`: the all-default mutating traversal changes ownership
state only, never content. -/
theorem eraseCow_cowsOwned (f : Field) :
    eraseCow (cowsOwned f) = eraseCow f := by
  cases f with
  | node k fs => simp [cowsOwned, eraseCow, eraseCowFs_cowsOwnedFs fs]
  | token r => rfl
  | seq fs => simp [cowsOwned, eraseCow, eraseCowFs_cowsOwnedFs fs]
  | optNone => rfl
  | optSome f => simp [cowsOwned, eraseCow, eraseCow_cowsOwned f]
  | pair a b =>
      simp [cowsOwned, eraseCow, eraseCow_cowsOwned a, eraseCow_cowsOwned b]
  | boxed f => simp [cowsOwned, eraseCow, eraseCow_cowsOwned f]
  | cowB f => simp [cowsOwned, eraseCow, eraseCow_cowsOwned f]
  | cowO f => simp [cowsOwned, eraseCow, eraseCow_cowsOwned f]

/-- `eraseCow_cowsOwned` for field lists. -/
theorem eraseCowFs_cowsOwnedFs (fs : Fields) :
    eraseCowFs (cowsOwnedFs fs) = eraseCowFs fs := by
  cases fs with
  | nil => rfl
  | cons f fs =>
      simp [cowsOwnedFs, eraseCowFs, eraseCow_cowsOwned f,
        eraseCowFs_cowsOwnedFs fs]

end

mutual

/-- After `cowsOwned`, no borrowed `Cow` remains anywhere. -/
theorem allOwned_cowsOwned (f : Field) : allOwned (cowsOwned f) = true := by
  cases f with
  | node k fs => simpa [cowsOwned, allOwned] using allOwnedFs_cowsOwnedFs fs
  | token r => rfl
  | seq fs => simpa [cowsOwned, allOwned] using allOwnedFs_cowsOwnedFs fs
  | optNone => rfl
  | optSome f => simpa [cowsOwned, allOwned] using allOwned_cowsOwned f
  | pair a b =>
      simp [cowsOwned, allOwned, allOwned_cowsOwned a, allOwned_cowsOwned b]
  | boxed f => simpa [cowsOwned, allOwned] using allOwned_cowsOwned f
  | cowB f => simpa [cowsOwned, allOwned] using allOwned_cowsOwned f
  | cowO f => simpa [cowsOwned, allOwned] using allOwned_cowsOwned f

/-- `allOwned_cowsOwned` for field lists. -/
theorem allOwnedFs_cowsOwnedFs (fs : Fields) :
    allOwnedFs (cowsOwnedFs fs) = true := by
  cases fs with
  | nil => rfl
  | cons f fs =>
      simp [cowsOwnedFs, allOwnedFs, allOwned_cowsOwned f,
        allOwnedFs_cowsOwnedFs fs]

end

mutual

/-- The number of nodes a field contains (each contributes one enter and
one exit hook invocation to a read-only traversal). -/
def countN : Field → Nat
  | Field.node _ fs => countNFs fs + 1
  | Field.token _ => 0
  | Field.seq fs => countNFs fs
  | Field.optNone => 0
  | Field.optSome f => countN f
  | Field.pair a b => countN a + countN b
  | Field.boxed f => countN f
  | Field.cowB f => countN f
  | Field.cowO f => countN f

/-- `countN` over a field list. -/
def countNFs : Fields → Nat
  | Fields.nil => 0
  | Fields.cons f fs => countN f + countNFs fs

end

mutual

/-- The number of token references a field contains (each contributes one
token hook invocation to a read-only traversal). -/
def countT : Field → Nat
  | Field.node _ fs => countTFs fs
  | Field.token _ => 1
  | Field.seq fs => countTFs fs
  | Field.optNone => 0
  | Field.optSome f => countT f
  | Field.pair a b => countT a + countT b
  | Field.boxed f => countT f
  | Field.cowB f => countT f
  | Field.cowO f => countT f

/-- `countT` over a field list. -/
def countTFs : Fields → Nat
  | Fields.nil => 0
  | Fields.cons f fs => countT f + countTFs fs

end

mutual

/-- A read-only traversal performs exactly two node-hook invocations per
node and one token-hook invocation per token reference: the work is finite
and fully determined by the tree. -/
theorem fieldTrace_length (f : Field) :
    (fieldTrace f).length = 2 * countN f + countT f := by
  cases f with
  | node k fs =>
      have ih := fieldsTrace_length fs
      simp [fieldTrace, countN, countT, ih]
      omega
  | token r => simp [fieldTrace, countN, countT]
  | seq fs => simpa [fieldTrace, countN, countT] using fieldsTrace_length fs
  | optNone => simp [fieldTrace, countN, countT]
  | optSome f => simpa [fieldTrace, countN, countT] using fieldTrace_length f
  | pair a b =>
      have ha := fieldTrace_length a
      have hb := fieldTrace_length b
      simp [fieldTrace, countN, countT, ha, hb]
      omega
  | boxed f => simpa [fieldTrace, countN, countT] using fieldTrace_length f
  | cowB f => simpa [fieldTrace, countN, countT] using fieldTrace_length f
  | cowO f => simpa [fieldTrace, countN, countT] using fieldTrace_length f

/-- `fieldTrace_length` for field lists. -/
theorem fieldsTrace_length (fs : Fields) :
    (fieldsTrace fs).length = 2 * countNFs fs + countTFs fs := by
  cases fs with
  | nil => simp [fieldsTrace, countNFs, countTFs]
  | cons f fs =>
      have hf := fieldTrace_length f
      have hfs := fieldsTrace_length fs
      simp [fieldsTrace, countNFs, countTFs, hf, hfs]
      omega

end

theorem sweepTrace_indices (arena : List Token) :
    (sweepTrace arena).map evIndex = List.range arena.length := by
  rw [sweepTrace_tokens, List.map_map, ← iterate_map_fst]
  rfl

theorem sweepTrace_length (arena : List Token) :
    (sweepTrace arena).length = arena.length := by
  have h := congrArg List.length (sweepTrace_indices arena)
  simpa using h

theorem countEnter_sweepTrace (K : NodeKind) (arena : List Token) :
    countEnter K (sweepTrace arena) = 0 := by
  rw [sweepTrace_tokens, countEnter]
  induction iterate arena with
  | nil => simp
  | cons p l ih => simpa using ih

theorem countExit_sweepTrace (K : NodeKind) (arena : List Token) :
    countExit K (sweepTrace arena) = 0 := by
  rw [sweepTrace_tokens, countExit]
  induction iterate arena with
  | nil => simp
  | cons p l ih => simpa using ih

theorem applyHook_default (σ : Type) (s : σ) (e : Event) :
    applyHook (defaultVisitor σ) s e = s := by
  cases e <;> rfl

theorem foldl_applyHook_default (σ : Type) (l : List Event) (s : σ) :
    l.foldl (applyHook (defaultVisitor σ)) s = s := by
  induction l generalizing s with
  | nil => rfl
  | cons e l ih => simp [applyHook_default, ih]

theorem sweepMutGo_default (σ : Type) (arena : List Token)
    (l : List (Nat × Token)) (s : σ) :
    sweepMutGo (defaultVisitorMut σ) arena l s = s := by
  induction l generalizing s with
  | nil => rfl
  | cons p rest ih =>
      cases p with
      | mk i t => simp [sweepMutGo, defaultVisitorMut_token, ih]

theorem sweep_mut_default (σ : Type) (arena : List Token) (s : σ) :
    sweep_mut (defaultVisitorMut σ) arena s = s :=
  sweepMutGo_default σ arena (iterate arena) s

theorem visit_ast_mut_decomp {σ : Type} (v : VisitorMut σ) (n : Nat)
    (ast : Ast) (s : σ) :
    visit_ast_mut v n ast s =
      (Field.visit_mut v n ast.nodes (sweep_mut v ast.tokens s)).map
        (fun r => (⟨ast.tokens, r.1⟩, r.2)) := by
  cases hm : Field.visit_mut v n ast.nodes (sweep_mut v ast.tokens s) with
  | none => simp [visit_ast_mut, hm]
  | some r => cases r with | mk root2 s2 => simp [visit_ast_mut, hm]

/-- A trace in which every node kind has as many enter-hook invocations
as exit-hook invocations. -/
def balanced (d : List Event) : Prop :=
  ∀ K : NodeKind, countEnter K d = countExit K d

theorem balanced_nil : balanced [] := by
  intro K; simp [countEnter, countExit]

theorem balanced_app {d1 d2 : List Event} (h1 : balanced d1) (h2 : balanced d2) :
    balanced (d1 ++ d2) := by
  intro K
  rw [countEnter_append, countExit_append, h1 K, h2 K]

theorem balanced_token_single (tk : TokenKind) (r : TokenReference) :
    balanced [Event.token tk r] := by
  intro K
  rw [countEnter_token_single, countExit_token_single]

theorem balanced_bracket' {d : List Event} (k : NodeKind) (fsa fsb : Fields)
    (hd : balanced d) :
    balanced (Event.enter k fsa :: (d ++ [Event.exit k fsb])) :=
  balanced_bracket k k fsa fsb d hd rfl

theorem traced_enterHook {σ : Type} (v : VisitorMut σ) (k : NodeKind)
    (fs : Fields) (p : σ × List Event) :
    (traced v).enterHook k fs p =
      ((v.enterHook k fs p.1).1,
        ((v.enterHook k fs p.1).2, p.2 ++ [Event.enter k fs])) := rfl

theorem traced_exitHook {σ : Type} (v : VisitorMut σ) (k : NodeKind)
    (fs : Fields) (p : σ × List Event) :
    (traced v).exitHook k fs p =
      ((v.exitHook k fs p.1).1,
        ((v.exitHook k fs p.1).2, p.2 ++ [Event.exit k fs])) := rfl

theorem traced_tokenRef {σ : Type} (v : VisitorMut σ) (r : TokenReference)
    (p : σ × List Event) :
    TokenReference.visit_mut (traced v) r p =
      ((TokenReference.visit_mut v r p.1).1,
        ((TokenReference.visit_mut v r p.1).2,
          p.2 ++ [Event.token r.resolve.kind r])) := rfl

/-- Any successful run of a mutating visitor, wrapped so that every hook
invocation is recorded, appends a balanced trace delta: however the hooks
rewrite the tree in flight, every node kind records equally many enter-
and exit-hook invocations, because the traversal protocol brackets each
visited node. -/
theorem traced_balance {σ : Type} (v : VisitorMut σ) :
    ∀ n : Nat,
      (∀ (f : Field) (s : σ) (tr : List Event) (f2 : Field) (s2 : σ)
          (tr2 : List Event),
        Field.visit_mut (traced v) n f (s, tr) = some (f2, (s2, tr2)) →
        ∃ d, tr2 = tr ++ d ∧ balanced d) ∧
      (∀ (fs : Fields) (s : σ) (tr : List Event) (fs2 : Fields) (s2 : σ)
          (tr2 : List Event),
        Fields.visit_mut (traced v) n fs (s, tr) = some (fs2, (s2, tr2)) →
        ∃ d, tr2 = tr ++ d ∧ balanced d) := by
  intro n
  induction n with
  | zero =>
      constructor
      · intro f s tr f2 s2 tr2 h; simp [Field.visit_mut] at h
      · intro fs s tr fs2 s2 tr2 h; simp [Fields.visit_mut] at h
  | succ n ih =>
      constructor
      · intro f s tr f2 s2 tr2 h
        cases f with
        | node k fs =>
            simp only [Field.visit_mut, traced_enterHook, traced_exitHook] at h
            split at h
            · simp at h
            · rename_i fs2' p heq
              cases p with
              | mk sA trA =>
                  simp only [Option.some.injEq, Prod.mk.injEq] at h
                  obtain ⟨h1, h2, h3⟩ := h
                  obtain ⟨d1, hd1, hb1⟩ := ih.2 _ _ _ _ _ _ heq
                  refine ⟨Event.enter k fs :: (d1 ++ [Event.exit k fs2']), ?_, ?_⟩
                  · rw [← h3, hd1]; simp
                  · exact balanced_bracket' k fs fs2' hb1
        | token r =>
            simp only [Field.visit_mut, traced_tokenRef] at h
            simp only [Option.some.injEq, Prod.mk.injEq] at h
            obtain ⟨h1, h2, h3⟩ := h
            exact ⟨[Event.token r.resolve.kind r], h3.symm,
              balanced_token_single _ r⟩
        | seq fs =>
            simp only [Field.visit_mut] at h
            split at h
            · simp at h
            · rename_i fs2' p heq
              cases p with
              | mk sA trA =>
                  simp only [Option.some.injEq, Prod.mk.injEq] at h
                  obtain ⟨h1, h2, h3⟩ := h
                  obtain ⟨d1, hd1, hb1⟩ := ih.2 _ _ _ _ _ _ heq
                  exact ⟨d1, by rw [← h3, hd1], hb1⟩
        | optNone =>
            simp only [Field.visit_mut] at h
            simp only [Option.some.injEq, Prod.mk.injEq] at h
            obtain ⟨h1, h2, h3⟩ := h
            exact ⟨[], by rw [← h3]; simp, balanced_nil⟩
        | optSome f =>
            simp only [Field.visit_mut] at h
            split at h
            · simp at h
            · rename_i f2' p heq
              cases p with
              | mk sA trA =>
                  simp only [Option.some.injEq, Prod.mk.injEq] at h
                  obtain ⟨h1, h2, h3⟩ := h
                  obtain ⟨d1, hd1, hb1⟩ := ih.1 _ _ _ _ _ _ heq
                  exact ⟨d1, by rw [← h3, hd1], hb1⟩
        | pair a b =>
            simp only [Field.visit_mut] at h
            split at h
            · simp at h
            · rename_i a2 p heq
              cases p with
              | mk sA trA =>
                  split at h
                  · simp at h
                  · rename_i b2 q heq2
                    cases q with
                    | mk sB trB =>
                        simp only [Option.some.injEq, Prod.mk.injEq] at h
                        obtain ⟨h1, h2, h3⟩ := h
                        obtain ⟨d1, hd1, hb1⟩ := ih.1 _ _ _ _ _ _ heq
                        obtain ⟨d2, hd2, hb2⟩ := ih.1 _ _ _ _ _ _ heq2
                        refine ⟨d1 ++ d2, ?_, balanced_app hb1 hb2⟩
                        rw [← h3, hd2, hd1]; simp
        | boxed f =>
            simp only [Field.visit_mut] at h
            split at h
            · simp at h
            · rename_i f2' p heq
              cases p with
              | mk sA trA =>
                  simp only [Option.some.injEq, Prod.mk.injEq] at h
                  obtain ⟨h1, h2, h3⟩ := h
                  obtain ⟨d1, hd1, hb1⟩ := ih.1 _ _ _ _ _ _ heq
                  exact ⟨d1, by rw [← h3, hd1], hb1⟩
        | cowB f =>
            simp only [Field.visit_mut] at h
            split at h
            · simp at h
            · rename_i f2' p heq
              cases p with
              | mk sA trA =>
                  simp only [Option.some.injEq, Prod.mk.injEq] at h
                  obtain ⟨h1, h2, h3⟩ := h
                  obtain ⟨d1, hd1, hb1⟩ := ih.1 _ _ _ _ _ _ heq
                  exact ⟨d1, by rw [← h3, hd1], hb1⟩
        | cowO f =>
            simp only [Field.visit_mut] at h
            split at h
            · simp at h
            · rename_i f2' p heq
              cases p with
              | mk sA trA =>
                  simp only [Option.some.injEq, Prod.mk.injEq] at h
                  obtain ⟨h1, h2, h3⟩ := h
                  obtain ⟨d1, hd1, hb1⟩ := ih.1 _ _ _ _ _ _ heq
                  exact ⟨d1, by rw [← h3, hd1], hb1⟩
      · intro fs s tr fs2 s2 tr2 h
        cases fs with
        | nil =>
            simp only [Fields.visit_mut] at h
            simp only [Option.some.injEq, Prod.mk.injEq] at h
            obtain ⟨h1, h2, h3⟩ := h
            exact ⟨[], by rw [← h3]; simp, balanced_nil⟩
        | cons f fs =>
            simp only [Fields.visit_mut] at h
            split at h
            · simp at h
            · rename_i f2' p heq
              cases p with
              | mk sA trA =>
                  split at h
                  · simp at h
                  · rename_i fs2' q heq2
                    cases q with
                    | mk sB trB =>
                        simp only [Option.some.injEq, Prod.mk.injEq] at h
                        obtain ⟨h1, h2, h3⟩ := h
                        obtain ⟨d1, hd1, hb1⟩ := ih.1 _ _ _ _ _ _ heq
                        obtain ⟨d2, hd2, hb2⟩ := ih.2 _ _ _ _ _ _ heq2
                        refine ⟨d1 ++ d2, ?_, balanced_app hb1 hb2⟩
                        rw [← h3, hd2, hd1]; simp

/-- Claim C1: for every tree and every visitor, both driver entry points
perform two ordered passes.  For the read-only driver: the whole run is
the fold of the visitor's hooks over the run's trace; that trace is the
sweep trace followed by the structural-descent trace; the sweep trace has
exactly one token-hook event per arena entry, in creation order, carrying
that entry's kind and its borrowed reference, with the observed indices
being exactly `0..N-1` in order.  For the mutating driver: the run is the
arena sweep followed by the structural descent from the root, with the
sweep's final state feeding the descent. -/
theorem claim_C1 {σ τ : Type} (v : Visitor σ) (w : VisitorMut τ) (n : Nat)
    (ast : Ast) (s : σ) (t : τ) :
    visit_ast v ast s = (astTrace ast).foldl (applyHook v) s
  ∧ astTrace ast = sweepTrace ast.tokens ++ fieldTrace ast.nodes
  ∧ sweepTrace ast.tokens =
      (iterate ast.tokens).map
        (fun p => Event.token p.2.kind (TokenReference.borrowed ast.tokens p.1))
  ∧ (sweepTrace ast.tokens).map evIndex = List.range ast.tokens.length
  ∧ visit_ast_mut w n ast t =
      (Field.visit_mut w n ast.nodes (sweep_mut w ast.tokens t)).map
        (fun r => (⟨ast.tokens, r.1⟩, r.2)) :=
  ⟨visit_ast_fold v ast s, astTrace_decomp ast, sweepTrace_tokens ast.tokens,
    sweepTrace_indices ast.tokens, visit_ast_mut_decomp w n ast t⟩

/-- Claim C2: over one complete traversal, every node kind records equally
many enter- and exit-hook invocations, and each node instance's enter call
strictly precedes its exit call with the recursion into its declared
fields, in declaration order, between the two.  Stated as: the trace of a
node is its enter event, then its fields' trace, then its exit event; a
full read-only `visit_ast` trace is balanced for every kind; and any
successful mutating traversal (arbitrary rewriting hooks, run with event
recording) produces a balanced trace as well. -/
theorem claim_C2 {σ : Type} (v : VisitorMut σ) (n : Nat) (K k : NodeKind)
    (fs : Fields) (ast : Ast) (f f2 : Field) (s s2 : σ) (tr : List Event) :
    fieldTrace (Field.node k fs) =
      Event.enter k fs :: (fieldsTrace fs ++ [Event.exit k fs])
  ∧ countEnter K (astTrace ast) = countExit K (astTrace ast)
  ∧ (Field.visit_mut (traced v) n f (s, []) = some (f2, (s2, tr)) →
      countEnter K tr = countExit K tr) := by
  refine ⟨rfl, ?_, ?_⟩
  · rw [astTrace_decomp, countEnter_append, countExit_append,
      countEnter_sweepTrace, countExit_sweepTrace, balanced_fieldTrace K]
  · intro h
    obtain ⟨d, hd, hb⟩ := ((traced_balance v n).1 f s [] f2 s2 tr h)
    simpa [hd] using hb K

/-- Witness for `claim_C2` at a concrete one-node tree: the recorded
mutating-traversal trace is the enter event followed by the exit event,
and the counts agree. -/
theorem claim_C2_witness :
    (Field.visit_mut (traced (defaultVisitorMut Unit)) 2
        (Field.node NodeKind.call Fields.nil) ((), [])
      = some (Field.node NodeKind.call Fields.nil,
          ((), [Event.enter NodeKind.call Fields.nil,
                Event.exit NodeKind.call Fields.nil])))
  ∧ countEnter NodeKind.call
      [Event.enter NodeKind.call Fields.nil, Event.exit NodeKind.call Fields.nil]
    = countExit NodeKind.call
      [Event.enter NodeKind.call Fields.nil,
        Event.exit NodeKind.call Fields.nil] := by
  have hA : Field.visit_mut (traced (defaultVisitorMut Unit)) 2
      (Field.node NodeKind.call Fields.nil) ((), [])
      = some (Field.node NodeKind.call Fields.nil,
          ((), [Event.enter NodeKind.call Fields.nil,
                Event.exit NodeKind.call Fields.nil])) := by
    simp [Field.visit_mut, Fields.visit_mut, traced_enterHook, traced_exitHook,
      defaultVisitorMut_enter, defaultVisitorMut_exit]
  exact ⟨hA,
    (claim_C2 (defaultVisitorMut Unit) 2 NodeKind.call NodeKind.call Fields.nil
      ⟨[], Field.optNone⟩ (Field.node NodeKind.call Fields.nil)
      (Field.node NodeKind.call Fields.nil) () ()
      [Event.enter NodeKind.call Fields.nil,
        Event.exit NodeKind.call Fields.nil]).2.2 hA⟩

/-- Claim C3: traversal of every generic container follows the uniform
composition rules on both paths: a `Vec` visits its elements from index 0
upward in order, an `Option` visits the value if present and is a no-op
otherwise, a pair visits the first then the second component, and a `Box`
forwards to the owned value. -/
theorem claim_C3 {σ τ : Type} (v : Visitor σ) (w : VisitorMut τ) (n : Nat)
    (f fh a b : Field) (fs : Fields) (s : σ) (t : τ) :
    Fields.visit v Fields.nil s = s
  ∧ Fields.visit v (Fields.cons fh fs) s = Fields.visit v fs (Field.visit v fh s)
  ∧ fieldsTrace (Fields.cons fh fs) = fieldTrace fh ++ fieldsTrace fs
  ∧ Field.visit v Field.optNone s = s
  ∧ Field.visit v (Field.optSome f) s = Field.visit v f s
  ∧ Field.visit v (Field.pair a b) s = Field.visit v b (Field.visit v a s)
  ∧ Field.visit v (Field.boxed f) s = Field.visit v f s
  ∧ Fields.visit_mut w (n + 1) Fields.nil t = some (Fields.nil, t)
  ∧ Fields.visit_mut w (n + 1) (Fields.cons fh fs) t =
      (match Field.visit_mut w n fh t with
       | none => none
       | some (f2, t1) =>
         match Fields.visit_mut w n fs t1 with
         | none => none
         | some (fs2, t2) => some (Fields.cons f2 fs2, t2))
  ∧ Field.visit_mut w (n + 1) Field.optNone t = some (Field.optNone, t)
  ∧ Field.visit_mut w (n + 1) (Field.optSome f) t =
      (Field.visit_mut w n f t).map (fun r => (Field.optSome r.1, r.2))
  ∧ Field.visit_mut w (n + 1) (Field.pair a b) t =
      (match Field.visit_mut w n a t with
       | none => none
       | some (a2, t1) =>
         (Field.visit_mut w n b t1).map (fun r => (Field.pair a2 r.1, r.2)))
  ∧ Field.visit_mut w (n + 1) (Field.boxed f) t =
      (Field.visit_mut w n f t).map (fun r => (Field.boxed r.1, r.2))
  ∧ Field.visit_mut w (n + 1) (Field.seq fs) t =
      (Fields.visit_mut w n fs t).map (fun r => (Field.seq r.1, r.2)) := by
  refine ⟨by simp [Fields.visit], by simp [Fields.visit], rfl,
    by simp [Field.visit], by simp [Field.visit], by simp [Field.visit],
    by simp [Field.visit], by simp [Fields.visit_mut], ?_,
    by simp [Field.visit_mut], ?_, ?_, ?_, ?_⟩
  · simp only [Fields.visit_mut]
  · cases hm : Field.visit_mut w n f t with
    | none => simp [Field.visit_mut, hm]
    | some r => cases r with | mk f2 t2 => simp [Field.visit_mut, hm]
  · cases hm : Field.visit_mut w n a t with
    | none => simp [Field.visit_mut, hm]
    | some r =>
        cases r with
        | mk a2 t1 =>
            cases hm2 : Field.visit_mut w n b t1 with
            | none => simp [Field.visit_mut, hm, hm2]
            | some q => cases q with | mk b2 t2 => simp [Field.visit_mut, hm, hm2]
  · cases hm : Field.visit_mut w n f t with
    | none => simp [Field.visit_mut, hm]
    | some r => cases r with | mk f2 t2 => simp [Field.visit_mut, hm]
  · cases hm : Fields.visit_mut w n fs t with
    | none => simp [Field.visit_mut, hm]
    | some r => cases r with | mk fs2 t2 => simp [Field.visit_mut, hm]

/-- Claim C4 is refuted as stated: even when the visitor's hooks never
write (the all-default mutating visitor), a traversed shared `Cow` field
IS duplicated, because the mutating path calls `to_mut()` unconditionally
before forwarding.  Concretely, visiting a borrowed `Cow` around a token
field with the all-default visitor returns the field in the `Owned`
state, which differs from the original borrowed state. -/
theorem claim_C4_counterexample :
    Field.visit_mut (defaultVisitorMut Unit) 2
        (Field.cowB (Field.token (TokenReference.owned
          ⟨TokenKind.identifier, "x"⟩))) ()
      = some (Field.cowO (Field.token (TokenReference.owned
          ⟨TokenKind.identifier, "x"⟩)), ())
  ∧ Field.cowO (Field.token (TokenReference.owned ⟨TokenKind.identifier, "x"⟩))
      ≠ Field.cowB (Field.token (TokenReference.owned
          ⟨TokenKind.identifier, "x"⟩)) := by
  constructor
  · simp [Field.visit_mut, defaultVisitorMut_token]
  · intro h
    exact Field.noConfusion h

/-- Claim C4 amended: during mutating traversal a shared (`Cow`) field is
duplicated privately as soon as it is traversed — `to_mut()` runs before
forwarding, even when the hooks never write — and the duplication is
indeed private: the traversal output holds the owned copy, whose content
(ownership tags erased) is unchanged when the hooks are all defaults, and
the original shared value is left for the other holders. -/
theorem claim_C4_amended {σ : Type} (x : Field) (s : σ) (n : Nat)
    (h : sizeF x < n) :
    Field.visit_mut (defaultVisitorMut σ) (n + 1) (Field.cowB x) s
      = some (Field.cowO (cowsOwned x), s)
  ∧ eraseCow (cowsOwned x) = eraseCow x := by
  constructor
  · simp [Field.visit_mut, (default_visit_mut σ n).1 x s h]
  · exact eraseCow_cowsOwned x

/-- Witness for `claim_C4_amended` at a concrete borrowed token field. -/
theorem claim_C4_amended_witness :
    sizeF (Field.token (TokenReference.owned ⟨TokenKind.identifier, "y"⟩)) < 2
  ∧ (Field.visit_mut (defaultVisitorMut Unit) 3
        (Field.cowB (Field.token (TokenReference.owned
          ⟨TokenKind.identifier, "y"⟩))) ()
      = some (Field.cowO (cowsOwned (Field.token (TokenReference.owned
          ⟨TokenKind.identifier, "y"⟩))), ())
    ∧ eraseCow (cowsOwned (Field.token (TokenReference.owned
          ⟨TokenKind.identifier, "y"⟩)))
        = eraseCow (Field.token (TokenReference.owned
          ⟨TokenKind.identifier, "y"⟩))) :=
  ⟨by simp [sizeF],
    claim_C4_amended (Field.token (TokenReference.owned
      ⟨TokenKind.identifier, "y"⟩)) () 2 (by simp [sizeF])⟩

/-- Claim C5: the copy-on-write law.  The mutating path through a shared
(`Cow::Borrowed`) value obtains an exclusive copy of the shared content
BEFORE forwarding: the recursion runs on the private copy and the result
replaces the field with an owned value, so the shared value other holders
reference is never written through — mutating one tree cannot change what
a tree sharing the subtree produces afterward.  (Through `Cow::Owned` the
value is already exclusive and is forwarded directly, staying owned.) -/
theorem claim_C5 {σ : Type} (v : VisitorMut σ) (n : Nat) (x : Field) (s : σ) :
    Field.visit_mut v (n + 1) (Field.cowB x) s =
      (Field.visit_mut v n x s).map (fun r => (Field.cowO r.1, r.2))
  ∧ Field.visit_mut v (n + 1) (Field.cowO x) s =
      (Field.visit_mut v n x s).map (fun r => (Field.cowO r.1, r.2)) := by
  constructor
  · cases hm : Field.visit_mut v n x s with
    | none => simp [Field.visit_mut, hm]
    | some r => cases r with | mk x2 s2 => simp [Field.visit_mut, hm]
  · cases hm : Field.visit_mut v n x s with
    | none => simp [Field.visit_mut, hm]
    | some r => cases r with | mk x2 s2 => simp [Field.visit_mut, hm]

/-- Claim C6: for every tree with an arena of `N` tokens, the full-arena
sweep invokes a token hook for every index `0..N-1` exactly once, with the
observed indices strictly increasing (`List.range N` is exactly that
sequence), one hook invocation per arena entry; and the no-op visitor's
sweep leaves its state unchanged. -/
theorem claim_C6 (σ : Type) (ast : Ast) (s : σ) :
    (sweepTrace ast.tokens).map evIndex = List.range ast.tokens.length
  ∧ (sweepTrace ast.tokens).length = ast.tokens.length
  ∧ List.Pairwise (fun a b => a < b) ((sweepTrace ast.tokens).map evIndex)
  ∧ sweep (defaultVisitor σ) ast.tokens s = s := by
  refine ⟨sweepTrace_indices ast.tokens, sweepTrace_length ast.tokens, ?_, ?_⟩
  · rw [sweepTrace_indices ast.tokens]
    exact List.pairwise_lt_range _
  · rw [sweep_fold, foldl_applyHook_default]

/-- Claim C7: read-only traversal has no observable side effect on tree
content: the entire run is the fold of the visitor's hooks over a trace
computed from the unchanged tree (the read path takes the tree immutably
and returns only the visitor state, mirroring `&self`, so the tree — and
hence any rendering of it — is the same value before and after), and the
read-only path through a shared `Cow` value forwards directly to the
shared value, on either variant, without ever taking a copy. -/
theorem claim_C7 {σ : Type} (v : Visitor σ) (ast : Ast) (s : σ) (f : Field) :
    visit_ast v ast s = (astTrace ast).foldl (applyHook v) s
  ∧ Field.visit v (Field.cowB f) s = Field.visit v f s
  ∧ Field.visit v (Field.cowO f) s = Field.visit v f s :=
  ⟨visit_ast_fold v ast s, by simp [Field.visit], by simp [Field.visit]⟩

/-- Claim C8: in the mutating driver, pass 1 (the arena sweep) completes
before any pass-2 rewrite occurs: the run equals the sweep followed by the
structural descent started from the sweep's final state; the tree the
driver returns keeps the original arena (so no pass-2 rewrite can affect
what pass 1 observed); and each sweep step keeps only the visitor state of
the token hook, discarding the rewritten temporary reference — pass 2
never sees rewrites made by token hooks during pass 1. -/
theorem claim_C8 {σ : Type} (v : VisitorMut σ) (n : Nat) (ast : Ast) (s : σ)
    (arena : List Token) (i : Nat) (tok : Token) (rest : List (Nat × Token)) :
    visit_ast_mut v n ast s =
      (Field.visit_mut v n ast.nodes (sweep_mut v ast.tokens s)).map
        (fun r => (⟨ast.tokens, r.1⟩, r.2))
  ∧ (visit_ast_mut v n ast s).map (fun r => r.1.tokens)
      = (visit_ast_mut v n ast s).map (fun _ => ast.tokens)
  ∧ sweepMutGo v arena ((i, tok) :: rest) s =
      sweepMutGo v arena rest
        (TokenReference.visit_mut v (TokenReference.borrowed arena i) s).2 := by
  refine ⟨visit_ast_mut_decomp v n ast s, ?_, rfl⟩
  cases hm : Field.visit_mut v n ast.nodes (sweep_mut v ast.tokens s) with
  | none => simp [visit_ast_mut, hm]
  | some r => cases r with | mk root2 s2 => simp [visit_ast_mut, hm]

/-- Claim C9: traversal terminates and cannot fail.  The read-only run is
a total function whose hook-invocation count is exactly the arena length
plus two invocations per node plus one per token field (the recursion is
structural and the work finite), and the no-op defaults leave the state
unchanged; the mutating run with the all-default hooks succeeds whenever
the recursion budget exceeds the tree's size (a bound fixed by the tree),
returning the tree with only the `Cow` ownership states forced. -/
theorem claim_C9 (σ : Type) (ast : Ast) (s : σ) (n : Nat)
    (h : sizeF ast.nodes < n) :
    (astTrace ast).length =
      ast.tokens.length + (2 * countN ast.nodes + countT ast.nodes)
  ∧ visit_ast (defaultVisitor σ) ast s = s
  ∧ visit_ast_mut (defaultVisitorMut σ) n ast s =
      some (⟨ast.tokens, cowsOwned ast.nodes⟩, s) := by
  refine ⟨?_, ?_, ?_⟩
  · rw [astTrace_decomp]
    simp [sweepTrace_length, fieldTrace_length]
  · rw [visit_ast_fold, foldl_applyHook_default]
  · rw [visit_ast_mut_decomp, sweep_mut_default,
      (default_visit_mut σ n).1 ast.nodes s h]
    rfl

/-- Witness for `claim_C9` at a one-token arena with a single empty block
node. -/
theorem claim_C9_witness :
    sizeF (Field.node NodeKind.block Fields.nil) < 2
  ∧ ((astTrace ⟨[⟨TokenKind.eof, ""⟩], Field.node NodeKind.block Fields.nil⟩).length
      = ([⟨TokenKind.eof, ""⟩] : List Token).length +
          (2 * countN (Field.node NodeKind.block Fields.nil) +
            countT (Field.node NodeKind.block Fields.nil))
    ∧ visit_ast (defaultVisitor Nat)
        ⟨[⟨TokenKind.eof, ""⟩], Field.node NodeKind.block Fields.nil⟩ 7 = 7
    ∧ visit_ast_mut (defaultVisitorMut Nat) 2
        ⟨[⟨TokenKind.eof, ""⟩], Field.node NodeKind.block Fields.nil⟩ 7 =
        some (⟨[⟨TokenKind.eof, ""⟩],
          cowsOwned (Field.node NodeKind.block Fields.nil)⟩, 7)) :=
  ⟨by simp [sizeF, sizeFs],
    claim_C9 Nat ⟨[⟨TokenKind.eof, ""⟩], Field.node NodeKind.block Fields.nil⟩ 7 2
      (by simp [sizeF, sizeFs])⟩

/-- Claim C10: the mutating path calls `to_mut()` on every traversed
`Cow` before forwarding, so even the all-default visitor — whose hooks
perform no write at all — leaves the tree's content unchanged (ownership
tags erased, the result equals the input) but leaves every traversed
`Cow` field in the `Owned` state, breaking structural sharing. -/
theorem claim_C10 (σ : Type) (f : Field) (s : σ) (n : Nat)
    (h : sizeF f < n) :
    Field.visit_mut (defaultVisitorMut σ) n f s = some (cowsOwned f, s)
  ∧ eraseCow (cowsOwned f) = eraseCow f
  ∧ allOwned (cowsOwned f) = true :=
  ⟨(default_visit_mut σ n).1 f s h, eraseCow_cowsOwned f, allOwned_cowsOwned f⟩

/-- Witness for `claim_C10` at a concrete borrowed `Cow` around a token
field. -/
theorem claim_C10_witness :
    sizeF (Field.cowB (Field.token (TokenReference.owned
      ⟨TokenKind.number, "1"⟩))) < 3
  ∧ (Field.visit_mut (defaultVisitorMut Unit) 3
        (Field.cowB (Field.token (TokenReference.owned
          ⟨TokenKind.number, "1"⟩))) ()
      = some (cowsOwned (Field.cowB (Field.token (TokenReference.owned
          ⟨TokenKind.number, "1"⟩))), ())
    ∧ eraseCow (cowsOwned (Field.cowB (Field.token (TokenReference.owned
          ⟨TokenKind.number, "1"⟩))))
        = eraseCow (Field.cowB (Field.token (TokenReference.owned
          ⟨TokenKind.number, "1"⟩)))
    ∧ allOwned (cowsOwned (Field.cowB (Field.token (TokenReference.owned
          ⟨TokenKind.number, "1"⟩)))) = true) :=
  ⟨by simp [sizeF],
    claim_C10 Unit (Field.cowB (Field.token (TokenReference.owned
      ⟨TokenKind.number, "1"⟩))) () 3 (by simp [sizeF])⟩

end FullMoon
